import Mathlib

/-!
Verification of the retrieval core of the gmat-docs-mcp-server repository.

The TypeScript sources are shallowly embedded:
* strings are modelled as `List Char` (`Str`); JavaScript's ASCII whitespace
  class is modelled by `isWs`;
* `estimateTokens`, `splitBySentences`, `hardSliceByCharacters` and
  `splitLargeChunk` from `src/utils/embedder.ts` become the computable
  functions of the same names below (the `Math.max(4 * maxTokens * 0.9, 1)`
  float expression is idealised as the exact rational `3.6 * maxTokens`,
  i.e. `max (36 * maxTokens / 10) 1` after flooring);
* the batching loop of `generateEmbeddings` becomes `makeBatches` over the
  list of estimated token counts;
* the JSON cache format of `src/utils/cache.ts` becomes the inductive `Json`
  together with `loadCacheModel` / `saveCacheJson`;
* the search engine of `src/utils/search.ts` becomes `SearchEngine` over
  real-valued vectors (the real-arithmetic idealisation of IEEE doubles).
-/

namespace GmatDocs

/-! ## Strings and whitespace -/

/-- Strings are modelled as lists of characters. -/
abbrev Str := List Char

/-- The JavaScript whitespace class `\s`, restricted to its ASCII members
(space, tab, newline, carriage return, vertical tab, form feed). -/
def isWs (c : Char) : Bool :=
  c = ' ' || c = '\t' || c = '\n' || c = '\r' || c = '\x0b' || c = '\x0c'

/-- Remove every whitespace character.  Two strings are equal "up to
whitespace normalisation" exactly when their `stripWs` images coincide. -/
def stripWs (s : Str) : Str := s.filter (fun c => !isWs c)

/-- JavaScript `String.prototype.trim`: drop leading and trailing whitespace. -/
def trim (s : Str) : Str :=
  ((s.dropWhile isWs).reverse.dropWhile isWs).reverse

/-- The token estimator of `src/utils/embedder.ts`:
`Math.ceil(text.length / 4)`. -/
def estimateTokens (s : Str) : ℕ := (s.length + 3) / 4

/-! ## Chunk splitter (`splitLargeChunk` in `src/utils/embedder.ts`) -/

/-- JavaScript `text.split('\n\n')`: split at the leftmost, non-overlapping
occurrences of a double newline. -/
def splitPara : Str → List Str
  | [] => [[]]
  | '\n' :: '\n' :: rest => [] :: splitPara rest
  | c :: rest =>
    match splitPara rest with
    | [] => [[c]]
    | p :: ps => (c :: p) :: ps

/-- Sentence-final punctuation recognised by `splitBySentences`. -/
def isPunct (c : Char) : Bool := c = '.' || c = '!' || c = '?'

/-- The scanning loop of `splitBySentences`: the regex
`(.*?[.!?](?:\s|$))` applied repeatedly (with `/gs`), the unmatched tail
appended.  `acc` holds the current part reversed. -/
def sentScan (acc : Str) : Str → List Str
  | [] => if acc.isEmpty then [] else [acc.reverse]
  | c :: [] =>
    if isPunct c then [(c :: acc).reverse]
    else sentScan (c :: acc) []
  | c :: d :: ds =>
    if isPunct c then
      if isWs d then (d :: c :: acc).reverse :: sentScan [] ds
      else sentScan (c :: acc) (d :: ds)
    else sentScan (c :: acc) (d :: ds)

/-- `splitBySentences` from `src/utils/embedder.ts`: raw regex parts, each
trimmed, empty parts dropped. -/
def splitBySentences (s : Str) : List Str :=
  ((sentScan [] s).map trim).filter (fun p => p.length > 0)

/-- The character window used by `hardSliceByCharacters`:
`Math.floor(Math.max(4 * maxTokens * 0.9, 1))`, idealised over exact
rationals as `max ⌊3.6 · maxTokens⌋ 1`. -/
def charLimit (maxTokens : ℕ) : ℕ := max (36 * maxTokens / 10) 1

/-- Fuelled slicing loop: each iteration consumes at least one character
(`max k 1 ≥ 1`), so fuel `s.length` always suffices. -/
def chunksOfAux (k : ℕ) : ℕ → Str → List Str
  | _, [] => []
  | 0, _ :: _ => []
  | fuel + 1, c :: rest =>
    (c :: rest).take (max k 1) :: chunksOfAux k fuel ((c :: rest).drop (max k 1))

/-- Cut a string into consecutive windows of `k` characters (`k` is always
at least 1 at every call site, so the inner `max k 1` is the identity; the
fuel only serves termination and never runs out). -/
def chunksOf (k : ℕ) (s : Str) : List Str := chunksOfAux k s.length s

/-- `hardSliceByCharacters` from `src/utils/embedder.ts`. -/
def hardSlice (s : Str) (maxTokens : ℕ) : List Str :=
  chunksOf (charLimit maxTokens) s

/-- The chunk record of `src/utils/parser.ts`. -/
structure Chunk where
  id : Str
  pageName : Str
  href : Str
  fullContent : Str
deriving DecidableEq

/-- The literal string `_part_` used in split-chunk ids. -/
def partSep : Str := ['_', 'p', 'a', 'r', 't', '_']

/-- Build the child chunk `{...chunk, id: id_part_n, fullContent: content}`. -/
def mkPart (parent : Chunk) (n : ℕ) (content : Str) : Chunk :=
  { parent with
      id := parent.id ++ partSep ++ Nat.toDigits 10 n
      fullContent := content }

/-- The mutable state of the `splitLargeChunk` loops: emitted sub-chunks (in
emission order), the current buffer, and the running part counter. -/
structure SplitState where
  subChunks : List Chunk
  buffer : Str
  partIndex : ℕ
deriving DecidableEq

/-- `pushBufferIfAny` from `splitLargeChunk` (paragraph buffer: flushed only
when its trim is non-empty). -/
def pushBufferIfAny (parent : Chunk) (st : SplitState) : SplitState :=
  if (trim st.buffer).length = 0 then st
  else
    { subChunks := st.subChunks ++ [mkPart parent st.partIndex st.buffer]
      buffer := []
      partIndex := st.partIndex + 1 }

/-- Emit each hard slice as its own sub-chunk, numbering from `n`. -/
def emitSlices (parent : Chunk) : ℕ → List Str → List Chunk
  | _, [] => []
  | n, s :: rest => mkPart parent n s :: emitSlices parent (n + 1) rest

/-- One iteration of the sentence loop in `splitLargeChunk` (`st.buffer`
plays the role of `sentenceBuffer`). -/
def sentStep (parent : Chunk) (maxTokens : ℕ) (st : SplitState) (sentence : Str) :
    SplitState :=
  let tentative := st.buffer ++ (if st.buffer.isEmpty then [] else [' ']) ++ sentence
  if estimateTokens tentative > maxTokens then
    let st1 : SplitState :=
      if st.buffer.isEmpty then st
      else
        { subChunks := st.subChunks ++ [mkPart parent st.partIndex st.buffer]
          buffer := []
          partIndex := st.partIndex + 1 }
    if estimateTokens sentence > maxTokens then
      let slices := hardSlice sentence maxTokens
      { subChunks := st1.subChunks ++ emitSlices parent st1.partIndex slices
        buffer := []
        partIndex := st1.partIndex + slices.length }
    else { st1 with buffer := sentence }
  else { st with buffer := tentative }

/-- The trailing `if (sentenceBuffer) push` of the sentence loop. -/
def sentFlush (parent : Chunk) (st : SplitState) : SplitState :=
  if st.buffer.isEmpty then st
  else
    { subChunks := st.subChunks ++ [mkPart parent st.partIndex st.buffer]
      buffer := []
      partIndex := st.partIndex + 1 }

/-- One iteration of the paragraph loop in `splitLargeChunk`.  In the
oversized-paragraph branch the sentence loop runs on its own sentence buffer
while the paragraph buffer (left by `pushBufferIfAny`) is preserved. -/
def paraStep (parent : Chunk) (maxTokens : ℕ) (st : SplitState) (rawParagraph : Str) :
    SplitState :=
  let paragraph := trim rawParagraph
  if estimateTokens paragraph > maxTokens then
    let st1 := pushBufferIfAny parent st
    let st2 := sentFlush parent
      ((splitBySentences paragraph).foldl (sentStep parent maxTokens)
        { subChunks := st1.subChunks, buffer := [], partIndex := st1.partIndex })
    { subChunks := st2.subChunks, buffer := st1.buffer, partIndex := st2.partIndex }
  else
    let tentative := st.buffer ++ (if st.buffer.isEmpty then [] else ['\n', '\n']) ++ paragraph
    if estimateTokens tentative > maxTokens then
      { pushBufferIfAny parent st with buffer := paragraph }
    else { st with buffer := tentative }

/-- `splitLargeChunk` from `src/utils/embedder.ts`. -/
def splitLargeChunk (chunk : Chunk) (maxTokens : ℕ) : List Chunk :=
  if estimateTokens chunk.fullContent ≤ maxTokens then [chunk]
  else
    let paragraphs := (splitPara chunk.fullContent).filter (fun p => (trim p).length > 0)
    let stFinal := pushBufferIfAny chunk
      (paragraphs.foldl (paraStep chunk maxTokens)
        { subChunks := [], buffer := [], partIndex := 0 })
    if stFinal.subChunks.length > 0 then stFinal.subChunks else [chunk]

/-! ## Embedding batcher (`generateEmbeddings` in `src/utils/embedder.ts`)

The batching loop depends on a chunk only through its estimated token
count, so chunks are represented by those counts.  The mid-loop re-split
branch (`chunkTokens > MAX_TOKENS_PER_INPUT`) can only fire on a chunk
estimated above `MAX_TOKENS_PER_INPUT`; the theorems below therefore carry
the hypothesis that every input count is at most `MAX_TOKENS_PER_INPUT`,
under which that branch is dead code and is omitted from the model. -/

def MAX_BATCH_SIZE : ℕ := 50

def MAX_TOKENS_PER_BATCH : ℕ := 6000

def MAX_TOKENS_PER_INPUT : ℕ := 7000

/-- One iteration of the batching loop.  State: closed batches (in order,
`.1`), the current batch (`.2.1`), and `currentBatchTokens` (`.2.2`). -/
def batchStep (st : List (List ℕ) × List ℕ × ℕ) (t : ℕ) : List (List ℕ) × List ℕ × ℕ :=
  if MAX_BATCH_SIZE ≤ st.2.1.length ∨ (st.2.1 ≠ [] ∧ MAX_TOKENS_PER_BATCH < st.2.2 + t) then
    (st.1 ++ [st.2.1], [t], t)
  else (st.1, st.2.1 ++ [t], st.2.2 + t)

/-- The batch partition produced by the loop of `generateEmbeddings`,
including the trailing flush of a non-empty final batch. -/
def makeBatches (tokens : List ℕ) : List (List ℕ) :=
  let st := tokens.foldl batchStep ([], [], 0)
  if st.2.1 ≠ [] then st.1 ++ [st.2.1] else st.1

/-! ## JSON values and the cache store (`src/utils/cache.ts`) -/

/-- Parsed JSON values.  JavaScript `undefined` is represented by `Option`
at use sites.  Numbers are idealised as rationals. -/
inductive Json where
  | null : Json
  | bool : Bool → Json
  | num : ℚ → Json
  | str : Str → Json
  | arr : List Json → Json
  | obj : List (Str × Json) → Json

/-- First-match association lookup inside a JSON object. -/
def lookupField : List (Str × Json) → Str → Option Json
  | [], _ => none
  | (k, v) :: rest, name => if k = name then some v else lookupField rest name

/-- JavaScript property access `value.name`: `none` models `undefined`. -/
def Json.getField : Json → Str → Option Json
  | .obj fields, name => lookupField fields name
  | _, _ => none

/-- JavaScript truthiness of a defined JSON value (`NaN` aside, which the
rational idealisation cannot represent). -/
def Json.truthy : Json → Bool
  | .null => false
  | .bool b => b
  | .num q => q ≠ 0
  | .str s => s ≠ []
  | .arr _ => true
  | .obj _ => true

/-- Truthiness of a possibly-`undefined` value. -/
def optTruthy : Option Json → Bool
  | none => false
  | some j => j.truthy

/-- `Array.isArray` on a possibly-`undefined` value. -/
def isArrOpt : Option Json → Bool
  | some (.arr _) => true
  | _ => false

/-- Field-name constants (`id`, `pageName`, `href`, `fullContent`,
`embedding`, `timestamp`, `version`, `chunks`, `totalChunks`). -/
def fId : Str := ['i', 'd']

def fPageName : Str := ['p', 'a', 'g', 'e', 'N', 'a', 'm', 'e']

def fHref : Str := ['h', 'r', 'e', 'f']

def fFullContent : Str := ['f', 'u', 'l', 'l', 'C', 'o', 'n', 't', 'e', 'n', 't']

def fEmbedding : Str := ['e', 'm', 'b', 'e', 'd', 'd', 'i', 'n', 'g']

def fTimestamp : Str := ['t', 'i', 'm', 'e', 's', 't', 'a', 'm', 'p']

def fVersion : Str := ['v', 'e', 'r', 's', 'i', 'o', 'n']

def fChunks : Str := ['c', 'h', 'u', 'n', 'k', 's']

def fTotalChunks : Str := ['t', 'o', 't', 'a', 'l', 'C', 'h', 'u', 'n', 'k', 's']

/-- The per-chunk validation of `loadCache` in `src/utils/cache.ts`:
`!chunk.id || !chunk.pageName || !chunk.href || !chunk.fullContent ||
!chunk.embedding` throws, and then `!Array.isArray(chunk.embedding)`
throws.  Note that the elements of `embedding` are never inspected. -/
def validChunk (chunk : Json) : Bool :=
  optTruthy (chunk.getField fId) && optTruthy (chunk.getField fPageName) &&
  optTruthy (chunk.getField fHref) && optTruthy (chunk.getField fFullContent) &&
  optTruthy (chunk.getField fEmbedding) && isArrOpt (chunk.getField fEmbedding)

/-- `loadCache` from `src/utils/cache.ts`.  Input `none` models a missing
cache file or unparseable JSON (both end in the `catch`, which returns
`null`, here `none`).  On success the raw parsed chunk objects are returned
unchanged (the source merely casts them). -/
def loadCacheModel (file : Option Json) : Option (List Json) :=
  match file with
  | none => none
  | some cacheData =>
    let chunksField := cacheData.getField fChunks
    if optTruthy chunksField = false ∨ isArrOpt chunksField = false then none
    else
      match chunksField with
      | some (.arr chunks) => if chunks.all validChunk then some chunks else none
      | _ => none

/-- An embedded chunk as produced by the setup pipeline (`EmbeddedChunk` in
`src/utils/embedder.ts`), with the rational idealisation of its vector. -/
structure EmbChunk where
  id : Str
  pageName : Str
  href : Str
  fullContent : Str
  embedding : List ℚ
deriving DecidableEq

/-- JSON serialisation of one embedded chunk (its shape under
`JSON.stringify`). -/
def chunkToJson (c : EmbChunk) : Json :=
  .obj [(fId, .str c.id), (fPageName, .str c.pageName), (fHref, .str c.href),
        (fFullContent, .str c.fullContent), (fEmbedding, .arr (c.embedding.map Json.num))]

/-- The cache object written by `saveCache` in `src/utils/cache.ts`. -/
def saveCacheJson (embeddedChunks : List EmbChunk) (timestamp : Str) : Json :=
  .obj [(fTimestamp, .str timestamp),
        (fVersion, .str ['1', '.', '0']),
        (fChunks, .arr (embeddedChunks.map chunkToJson)),
        (fTotalChunks, .num embeddedChunks.length)]

/-- The in-memory state of `SearchEngine` as far as `loadCache` from
`src/utils/search.ts` is concerned: `this.chunks` receives the raw
`cacheData.chunks` value with no structural validation (`none` models
`undefined`), and `this.isLoaded` is set. -/
structure JsonEngine where
  chunksField : Option Json
  isLoaded : Bool

/-- `SearchEngine.loadCache` from `src/utils/search.ts`: throws (here
`Except.error`) only when the cache file is absent or its JSON does not
parse (input `none`); otherwise it stores `cacheData.chunks` unvalidated
and marks the engine loaded. -/
def engineLoadCache (_e : JsonEngine) (file : Option Json) : Except Unit JsonEngine :=
  match file with
  | none => .error ()
  | some cacheData => .ok { chunksField := cacheData.getField fChunks, isLoaded := true }

/-! ## Search engine (`src/utils/search.ts`)

Vector arithmetic is idealised over the reals, so the definitions in this
section are noncomputable (`Real.sqrt` and real comparisons); classical
decidability is used for the score comparisons the source performs on
doubles. -/

/-- A stored chunk as the search engine sees it (`SearchChunk`). -/
structure SearchChunk where
  id : Str
  pageName : Str
  href : Str
  fullContent : Str
  embedding : List ℝ

/-- One query result (`SearchResult`). -/
structure SearchResult where
  chunk : SearchChunk
  score : ℝ

/-- The engine state: loaded chunks and the `isLoaded` flag. -/
structure SearchEngine where
  chunks : List SearchChunk
  isLoaded : Bool

/-- Errors thrown by `SearchEngine`. -/
inductive SearchError where
  | notLoaded : SearchError
  | dimensionMismatch : SearchError
deriving DecidableEq

/-- The dot-product accumulator of `cosineSimilarity`. -/
def dotProduct (a b : List ℝ) : ℝ := (List.zipWith (fun x y => x * y) a b).sum

/-- The `normA`/`normB` accumulators of `cosineSimilarity`: the sum of
squares (the square root is only taken in the final expression). -/
def sumSq (a : List ℝ) : ℝ := (a.map (fun x => x * x)).sum

open Classical in
/-- The value `cosineSimilarity` returns once the length guard has passed:
`0` when either accumulated norm is zero, otherwise
`dot / (sqrt normA * sqrt normB)`. -/
noncomputable def cosineVal (a b : List ℝ) : ℝ :=
  if sumSq a = 0 ∨ sumSq b = 0 then 0
  else dotProduct a b / (Real.sqrt (sumSq a) * Real.sqrt (sumSq b))

open Classical in
/-- `cosineSimilarity` from `src/utils/search.ts`, with its length guard. -/
noncomputable def cosineSimilarity (a b : List ℝ) : Except SearchError ℝ :=
  if a.length ≠ b.length then .error .dimensionMismatch
  else .ok (cosineVal a b)

open Classical in
/-- The result-collection loop of `search`: for each chunk in order, compute
the similarity (propagating a mismatch error) and keep it when
`score >= minScore`. -/
noncomputable def collectResults (queryEmbedding : List ℝ) (minScore : ℝ) :
    List SearchChunk → Except SearchError (List SearchResult)
  | [] => .ok []
  | c :: cs =>
    match cosineSimilarity queryEmbedding c.embedding with
    | .error e => .error e
    | .ok score =>
      match collectResults queryEmbedding minScore cs with
      | .error e => .error e
      | .ok rest => .ok (if minScore ≤ score then ⟨c, score⟩ :: rest else rest)

open Classical in
/-- `SearchEngine.search`: guard on `isLoaded`, collect qualifying results,
sort descending by score (the JavaScript comparator `b.score - a.score`),
and truncate to the first `topK`. -/
noncomputable def SearchEngine.search (e : SearchEngine) (queryEmbedding : List ℝ)
    (topK : ℕ) (minScore : ℝ) : Except SearchError (List SearchResult) :=
  if e.isLoaded = false then .error .notLoaded
  else
    match collectResults queryEmbedding minScore e.chunks with
    | .error err => .error err
    | .ok results =>
      .ok ((results.mergeSort (fun r s => decide (s.score ≤ r.score))).take topK)

open Classical in
/-- The number of stored chunks whose similarity to the query reaches
`minScore` (the quantity bounding the result length). -/
noncomputable def qualifyingCount (e : SearchEngine) (queryEmbedding : List ℝ)
    (minScore : ℝ) : ℕ :=
  (e.chunks.filter (fun c => decide (minScore ≤ cosineVal queryEmbedding c.embedding))).length

/-! ## Theorems: search guard (C8) and whitespace fallback (C10) -/

/-- C8: for every query vector, topK and minScore, calling
`SearchEngine.search` on an engine that has not completed a successful load
fails with the not-loaded error and never returns a (possibly empty) result
list. -/
theorem search_not_loaded_spec (e : SearchEngine) (q : List ℝ) (k : ℕ) (ms : ℝ)
    (h : e.isLoaded = false) :
    e.search q k ms = .error .notLoaded ∧ ∀ rs, e.search q k ms ≠ .ok rs := by
  refine ⟨by simp [SearchEngine.search, h], fun rs hc => ?_⟩
  simp [SearchEngine.search, h] at hc

/-- Witness for C8: the spec scenario `search([], topK=10, minScore=0.1)`
on a fresh engine fails with the not-loaded error. -/
theorem search_not_loaded_spec_witness :
    (SearchEngine.mk [] false).search [] 10 (1 / 10) = .error .notLoaded :=
  (search_not_loaded_spec ⟨[], false⟩ [] 10 (1 / 10) rfl).1

/-- C10: on a chunk whose estimate exceeds the budget but whose content
yields no non-whitespace paragraph when split on double newlines,
`splitLargeChunk` returns the unchanged singleton, whose estimate still
exceeds the budget. -/
theorem splitLargeChunk_whitespace_fallback (c : Chunk) (m : ℕ)
    (hover : m < estimateTokens c.fullContent)
    (hpara : (splitPara c.fullContent).filter (fun p => (trim p).length > 0) = []) :
    splitLargeChunk c m = [c] ∧
      ∃ d ∈ splitLargeChunk c m, m < estimateTokens d.fullContent := by
  have h1 : splitLargeChunk c m = [c] := by
    unfold splitLargeChunk
    rw [if_neg (by omega)]
    simp only [hpara, List.foldl_nil]
    simp [pushBufferIfAny, trim]
  exact ⟨h1, c, by rw [h1]; exact List.mem_singleton_self c, hover⟩

/-- Witness for C10: an oversized whitespace-only chunk (eight spaces,
budget 1) is returned unchanged. -/
theorem splitLargeChunk_whitespace_fallback_witness :
    splitLargeChunk ⟨['i'], ['p'], ['h'], List.replicate 8 ' '⟩ 1
      = [⟨['i'], ['p'], ['h'], List.replicate 8 ' '⟩] :=
  (splitLargeChunk_whitespace_fallback ⟨['i'], ['p'], ['h'], List.replicate 8 ' '⟩ 1
    (by decide) (by decide)).1

/-! ## Theorems: the batching loop (C5, C9) -/

/-- Relation between consecutive batches: the earlier batch was closed only
because one of the two bounds would have been exceeded by the first chunk
of the later batch. -/
def batchR (b1 b2 : List ℕ) : Prop :=
  MAX_BATCH_SIZE ≤ b1.length ∨ MAX_TOKENS_PER_BATCH < b1.sum + b2.headI

/-- Invariant of the batching-loop state. -/
def BatchInv : List (List ℕ) × List ℕ × ℕ → Prop := fun st =>
  let (batches, cur, curTokens) := st
  curTokens = cur.sum ∧
  cur.length ≤ MAX_BATCH_SIZE ∧
  (cur.sum ≤ MAX_TOKENS_PER_BATCH ∨ cur.length ≤ 1) ∧
  (∀ b ∈ batches, b ≠ [] ∧ b.length ≤ MAX_BATCH_SIZE ∧
    (b.sum ≤ MAX_TOKENS_PER_BATCH ∨ b.length = 1)) ∧
  (cur = [] → batches = []) ∧
  List.Chain' batchR (batches ++ [cur])

theorem batchStep_inv {st : List (List ℕ) × List ℕ × ℕ} (hst : BatchInv st) (t : ℕ) :
    BatchInv (batchStep st t) := by
  obtain ⟨batches, cur, curTokens⟩ := st
  obtain ⟨hct, hlen, hsum, hbs, hemp, hchain⟩ := hst
  rw [BatchInv, batchStep]
  split
  · rename_i hflush
    simp only at hflush
    have hcurne : cur ≠ [] := by
      rcases hflush with h | h
      · intro he; rw [he] at h; simp [MAX_BATCH_SIZE] at h
      · exact h.1
    refine ⟨by simp, by simp [MAX_BATCH_SIZE], Or.inr (by simp), ?_, by simp, ?_⟩
    · intro b hb
      simp only at hb
      rcases List.mem_append.mp hb with h | h
      · exact hbs b h
      · rw [List.mem_singleton] at h
        subst h
        refine ⟨hcurne, hlen, ?_⟩
        rcases hsum with h | h
        · exact Or.inl h
        · refine Or.inr ?_
          have hz : b.length ≠ 0 := fun hz => hcurne (List.eq_nil_of_length_eq_zero hz)
          omega
    · simp only
      rw [List.chain'_append]
      refine ⟨hchain, List.chain'_singleton _, ?_⟩
      intro x hx y hy
      simp only [List.head?_cons, Option.mem_some_iff] at hy
      subst hy
      rw [List.getLast?_concat] at hx
      simp only [Option.mem_some_iff] at hx
      subst hx
      rw [batchR]
      rcases hflush with h | h
      · exact Or.inl h
      · refine Or.inr ?_
        simp only [List.headI]
        omega
  · rename_i hstay
    simp only at hstay
    push_neg at hstay
    obtain ⟨hlt, htok⟩ := hstay
    refine ⟨by simp [hct], ?_, ?_, hbs, by simp, ?_⟩
    · simp only [List.length_append, List.length_singleton]
      rw [MAX_BATCH_SIZE] at hlt ⊢
      omega
    · rcases List.eq_nil_or_concat cur with he | hc
      · rw [he]
        exact Or.inr (by simp)
      · refine Or.inl ?_
        have hne : cur ≠ [] := by
          obtain ⟨l, a, rfl⟩ := hc
          simp
        have := htok hne
        simp only [List.sum_append, List.sum_singleton]
        omega
    · simp only
      cases hbatches : batches with
      | nil => simp
      | cons b bs =>
        have hcurne : cur ≠ [] := by
          intro he
          rw [hemp he] at hbatches
          exact List.noConfusion hbatches
        have hhead : (cur ++ [t]).headI = cur.headI := by
          cases cur with
          | nil => exact absurd rfl hcurne
          | cons x xs => simp
        rw [← hbatches]
        rw [List.chain'_append] at hchain ⊢
        refine ⟨hchain.1, List.chain'_singleton _, ?_⟩
        intro x hx y hy
        simp only [List.head?_cons, Option.mem_some_iff] at hy
        subst hy
        have hR := hchain.2.2 x hx cur (by simp)
        rw [batchR] at hR ⊢
        rw [hhead]
        exact hR

theorem batchFold_inv (l : List ℕ) :
    ∀ st, BatchInv st → BatchInv (l.foldl batchStep st) := by
  induction l with
  | nil => intro st h; exact h
  | cons t ts ih =>
    intro st h
    exact ih _ (batchStep_inv h t)

theorem batchFold_flatten (l : List ℕ) :
    ∀ st : List (List ℕ) × List ℕ × ℕ,
      (l.foldl batchStep st).1.flatten ++ (l.foldl batchStep st).2.1
        = st.1.flatten ++ st.2.1 ++ l := by
  induction l with
  | nil => intro st; simp
  | cons t ts ih =>
    intro st
    rw [List.foldl_cons, ih]
    rw [batchStep]
    split <;> simp

theorem batchInv_init : BatchInv ([], [], 0) := by
  refine ⟨rfl, by simp [MAX_BATCH_SIZE], Or.inl (by simp [MAX_TOKENS_PER_BATCH]), by simp,
    fun _ => rfl, by simp⟩

set_option maxRecDepth 4000 in
/-- C5: the batching loop of `generateEmbeddings` partitions the chunk
sequence in order into non-empty batches of at most `MAX_BATCH_SIZE`
chunks; a batch with at least two chunks never exceeds the per-batch token
budget; a batch is closed only when the next chunk would overflow one of
the two bounds; and 51 one-token chunks yield exactly the two batches of
sizes 50 and 1.  (The hypothesis that no chunk exceeds
`MAX_TOKENS_PER_INPUT` keeps the mid-loop re-split branch dead; the
pre-pass establishes it for well-formed corpora.) -/
theorem generateEmbeddings_batching_spec (l : List ℕ)
    (_h7 : ∀ t ∈ l, t ≤ MAX_TOKENS_PER_INPUT) :
    (makeBatches l).flatten = l
    ∧ (∀ b ∈ makeBatches l, b ≠ [] ∧ b.length ≤ MAX_BATCH_SIZE)
    ∧ (∀ b ∈ makeBatches l, 2 ≤ b.length → b.sum ≤ MAX_TOKENS_PER_BATCH)
    ∧ List.Chain' batchR (makeBatches l)
    ∧ makeBatches (List.replicate 51 1) = [List.replicate 50 1, [1]] := by
  obtain ⟨hct, hlen, hsum, hbs, hemp, hchain⟩ := batchFold_inv l ([], [], 0) batchInv_init
  have hflat := batchFold_flatten l ([], [], 0)
  simp only [List.flatten_nil, List.nil_append] at hflat
  rw [makeBatches]
  split
  · rename_i hne
    refine ⟨?_, ?_, ?_, ?_, by decide⟩
    · simp only [List.flatten_append, List.flatten_cons, List.flatten_nil, List.append_nil]
      exact hflat
    · intro b hb
      rcases List.mem_append.mp hb with h | h
      · exact ⟨(hbs b h).1, (hbs b h).2.1⟩
      · rw [List.mem_singleton] at h
        exact ⟨h ▸ hne, h ▸ hlen⟩
    · intro b hb h2
      rcases List.mem_append.mp hb with h | h
      · rcases (hbs b h).2.2 with hh | hh
        · exact hh
        · exact absurd (hh ▸ h2) (by decide)
      · rw [List.mem_singleton] at h
        rcases hsum with hh | hh
        · exact h ▸ hh
        · have h1 : b.length ≤ 1 := h ▸ hh
          exact absurd (h2.trans h1) (by decide)
    · exact hchain
  · rename_i hnil
    push_neg at hnil
    have hb0 := hemp hnil
    rw [hb0]
    rw [hb0, hnil] at hflat
    simp only [List.flatten_nil, List.append_nil] at hflat
    refine ⟨by simp [hflat], by simp, by simp, by simp, by decide⟩

/-- Witness for C5: the boundary scenario from the spec. -/
theorem generateEmbeddings_batching_spec_witness :
    makeBatches (List.replicate 51 1) = [List.replicate 50 1, [1]] :=
  (generateEmbeddings_batching_spec (List.replicate 51 1) (by decide)).2.2.2.2

set_option maxRecDepth 4000 in
/-- C9: every batch the loop hands to `embedBatch` has token sum at most
`MAX_TOKENS_PER_BATCH` or contains exactly one chunk, and a single chunk
estimated strictly between `MAX_TOKENS_PER_BATCH` and
`MAX_TOKENS_PER_INPUT` (here 6500) is sent as a one-element batch whose
token sum exceeds the per-batch budget. -/
theorem batch_token_invariant_spec (l : List ℕ)
    (_h7 : ∀ t ∈ l, t ≤ MAX_TOKENS_PER_INPUT) :
    (∀ b ∈ makeBatches l, b.sum ≤ MAX_TOKENS_PER_BATCH ∨ b.length = 1)
    ∧ makeBatches [6500] = [[6500]]
    ∧ MAX_TOKENS_PER_BATCH < List.sum [6500] ∧ List.sum [6500] < MAX_TOKENS_PER_INPUT := by
  obtain ⟨hct, hlen, hsum, hbs, hemp, hchain⟩ := batchFold_inv l ([], [], 0) batchInv_init
  refine ⟨?_, by decide, by decide, by decide⟩
  intro b hb
  rw [makeBatches] at hb
  revert hb
  split
  · rename_i hne
    intro hb
    rcases List.mem_append.mp hb with h | h
    · exact (hbs b h).2.2
    · rw [List.mem_singleton] at h
      rcases hsum with hh | hh
      · exact Or.inl (h ▸ hh)
      · refine Or.inr ?_
        have hbne : b ≠ [] := h ▸ hne
        have h1 : b.length ≤ 1 := h ▸ hh
        have hz : b.length ≠ 0 := fun hzz => hbne (List.eq_nil_of_length_eq_zero hzz)
        omega
  · rename_i hnil
    intro hb
    exact (hbs b hb).2.2

/-- Witness for C9: the 6500-token chunk travels alone and its batch
exceeds the per-batch budget. -/
theorem batch_token_invariant_spec_witness :
    List.sum [6500] ≤ MAX_TOKENS_PER_BATCH ∨ List.length [6500] = 1 :=
  (batch_token_invariant_spec [6500] (by decide)).1 [6500] (by decide)

/-! ## Theorems: cache-load validation (C3) and round trip (C6) -/

/-- C3 counterexample: the claim as stated fails twice over.  The Search
Engine's own `loadCache` accepts a parsed cache with no `chunks` field at
all (no structural validation), and the standalone `loadCache` of
`src/utils/cache.ts` accepts a chunk whose `embedding` is an array of
non-numbers (elements are never inspected). -/
theorem cacheLoad_validation_counterexample :
    engineLoadCache ⟨none, false⟩ (some (Json.obj [])) = .ok ⟨none, true⟩
    ∧ loadCacheModel (some (Json.obj [(fChunks, Json.arr [Json.obj [(fId, .str ['x']),
        (fPageName, .str ['p']), (fHref, .str ['h']), (fFullContent, .str ['c']),
        (fEmbedding, .arr [.str ['z']])]])]))
      = some [Json.obj [(fId, .str ['x']), (fPageName, .str ['p']), (fHref, .str ['h']),
        (fFullContent, .str ['c']), (fEmbedding, .arr [.str ['z']])]] :=
  ⟨rfl, rfl⟩

/-- C3 amended: the standalone cache loader fails (returns `none`) when the
cache is absent or unparseable, when the `chunks` field is missing or not a
sequence, or when any chunk fails the truthiness/array validation (which
checks that `embedding` is a sequence but never its elements); the Search
Engine's own `loadCache` fails only on an absent/unparseable file, and the
engine refuses to answer queries until a load has succeeded. -/
theorem cacheLoad_validation_spec :
    loadCacheModel none = none
    ∧ (∀ j : Json, isArrOpt (j.getField fChunks) = false → loadCacheModel (some j) = none)
    ∧ (∀ (j : Json) (chunks : List Json) (c : Json),
        j.getField fChunks = some (.arr chunks) → c ∈ chunks → validChunk c = false →
        loadCacheModel (some j) = none)
    ∧ (∀ e : JsonEngine, engineLoadCache e none = .error ())
    ∧ (∀ (e : SearchEngine) (q : List ℝ) (k : ℕ) (ms : ℝ), e.isLoaded = false →
        e.search q k ms = .error .notLoaded) := by
  refine ⟨rfl, ?_, ?_, fun e => rfl, ?_⟩
  · intro j h
    simp [loadCacheModel, h]
  · intro j chunks c hf hc hv
    have hall : chunks.all validChunk = false := by
      rw [List.all_eq_false]
      exact ⟨c, hc, by simp [hv]⟩
    simp [loadCacheModel, hf, optTruthy, Json.truthy, isArrOpt, hall]
  · intro e q k ms h
    simp [SearchEngine.search, h]

/-- Witness for C3 (amended): a cache whose `chunks` field is the number 1
is rejected by the standalone loader. -/
theorem cacheLoad_validation_spec_witness :
    loadCacheModel (some (Json.obj [(fChunks, Json.num 1)])) = none :=
  cacheLoad_validation_spec.2.1 (Json.obj [(fChunks, Json.num 1)]) rfl

/-- C6 counterexample: an embedded chunk whose `id` is the empty string
serialises fine but is rejected by `loadCache`'s truthiness validation, so
the save/load round trip does not return the original sequence. -/
theorem cache_roundtrip_counterexample :
    loadCacheModel (some (saveCacheJson [⟨[], ['p'], ['h'], ['c'], [1]⟩] []))
        ≠ some ([(⟨[], ['p'], ['h'], ['c'], [1]⟩ : EmbChunk)].map chunkToJson)
    ∧ loadCacheModel (some (saveCacheJson [⟨[], ['p'], ['h'], ['c'], [1]⟩] [])) = none := by
  have h : loadCacheModel (some (saveCacheJson [⟨[], ['p'], ['h'], ['c'], [1]⟩] [])) = none := rfl
  exact ⟨by rw [h]; exact fun hc => Option.noConfusion hc, h⟩

theorem getField_saveCache (chunks : List EmbChunk) (ts : Str) :
    (saveCacheJson chunks ts).getField fChunks = some (.arr (chunks.map chunkToJson)) := rfl

theorem validChunk_chunkToJson (c : EmbChunk) (hid : c.id ≠ []) (hpn : c.pageName ≠ [])
    (hhr : c.href ≠ []) (hfc : c.fullContent ≠ []) :
    validChunk (chunkToJson c) = true := by
  have h1 : (chunkToJson c).getField fId = some (.str c.id) := rfl
  have h2 : (chunkToJson c).getField fPageName = some (.str c.pageName) := rfl
  have h3 : (chunkToJson c).getField fHref = some (.str c.href) := rfl
  have h4 : (chunkToJson c).getField fFullContent = some (.str c.fullContent) := rfl
  have h5 : (chunkToJson c).getField fEmbedding = some (.arr (c.embedding.map Json.num)) := rfl
  rw [validChunk, h1, h2, h3, h4, h5]
  simp [optTruthy, Json.truthy, isArrOpt, hid, hpn, hhr, hfc]

/-- C6 amended: for every sequence of embedded chunks whose string fields
are all non-empty (JavaScript-truthy), saving and then loading returns
exactly the serialised originals, and the serialisation is injective, so
the loaded objects are deep-equal to the originals with ids, names, hrefs,
contents and numeric vectors preserved exactly.  (A chunk with any empty
required field is rejected on load, so the unrestricted claim fails.) -/
theorem cache_roundtrip_spec (chunks : List EmbChunk) (ts : Str)
    (h : ∀ c ∈ chunks, c.id ≠ [] ∧ c.pageName ≠ [] ∧ c.href ≠ [] ∧ c.fullContent ≠ []) :
    loadCacheModel (some (saveCacheJson chunks ts)) = some (chunks.map chunkToJson)
    ∧ ∀ c1 c2 : EmbChunk, chunkToJson c1 = chunkToJson c2 → c1 = c2 := by
  constructor
  · have hall : (chunks.map chunkToJson).all validChunk = true := by
      rw [List.all_eq_true]
      intro x hx
      obtain ⟨c, hcm, rfl⟩ := List.mem_map.mp hx
      obtain ⟨h1, h2, h3, h4⟩ := h c hcm
      exact validChunk_chunkToJson c h1 h2 h3 h4
    simp [loadCacheModel, getField_saveCache, optTruthy, Json.truthy, isArrOpt, hall]
  · intro c1 c2 hj
    cases c1 with
    | mk i1 p1 r1 f1 e1 =>
      cases c2 with
      | mk i2 p2 r2 f2 e2 =>
        simp only [chunkToJson, Json.obj.injEq, List.cons.injEq, Prod.mk.injEq, Json.str.injEq,
          Json.arr.injEq, and_true, true_and] at hj
        obtain ⟨hi, hp, hr, hf, he⟩ := hj
        have hemb : e1 = e2 :=
          List.map_injective_iff.mpr (fun a b hab => Json.num.inj hab) he
        simp [hi, hp, hr, hf, hemb]

/-- Witness for C6 (amended): a concrete one-chunk cache round-trips. -/
theorem cache_roundtrip_spec_witness :
    loadCacheModel (some (saveCacheJson [⟨['a'], ['b'], ['c'], ['d'], [1, 0]⟩] []))
      = some ([(⟨['a'], ['b'], ['c'], ['d'], [1, 0]⟩ : EmbChunk)].map chunkToJson) :=
  (cache_roundtrip_spec [⟨['a'], ['b'], ['c'], ['d'], [1, 0]⟩] [] (by decide)).1

/-! ## Theorems: cosine similarity (C2) -/

theorem dotProduct_self_eq_sumSq (a : List ℝ) : dotProduct a a = sumSq a := by
  unfold dotProduct sumSq
  induction a with
  | nil => simp
  | cons x xs ih => simp only [List.zipWith_cons_cons, List.map_cons, List.sum_cons, ih]

theorem sumSq_nonneg (a : List ℝ) : 0 ≤ sumSq a := by
  unfold sumSq
  induction a with
  | nil => simp
  | cons x xs ih =>
    simp only [List.map_cons, List.sum_cons]
    exact add_nonneg (mul_self_nonneg x) ih

theorem sumSq_pos_of_mem {a : List ℝ} {x : ℝ} (hx : x ∈ a) (hne : x ≠ 0) :
    0 < sumSq a := by
  induction hx with
  | head ys =>
    rw [sumSq]
    simp only [List.map_cons, List.sum_cons]
    have h1 : 0 < x * x := mul_self_pos.mpr hne
    have h2 : 0 ≤ sumSq ys := sumSq_nonneg ys
    rw [sumSq] at h2
    linarith
  | tail y hmem ih =>
    rw [sumSq]
    simp only [List.map_cons, List.sum_cons]
    have h2 : 0 < sumSq _ := ih
    rw [sumSq] at h2
    have h1 : 0 ≤ y * y := mul_self_nonneg y
    linarith

theorem dotProduct_eq_range (a b : List ℝ) (n : ℕ) (ha : a.length = n) (hb : b.length = n) :
    dotProduct a b = ∑ i ∈ Finset.range n, a.getD i 0 * b.getD i 0 := by
  unfold dotProduct
  induction n generalizing a b with
  | zero =>
    rw [List.length_eq_zero] at ha hb
    subst ha; subst hb
    simp
  | succ m ih =>
    cases a with
    | nil => simp at ha
    | cons x xs =>
      cases b with
      | nil => simp at hb
      | cons y ys =>
        rw [Finset.sum_range_succ']
        simp only [List.zipWith_cons_cons, List.sum_cons, List.getD_cons_succ,
          List.getD_cons_zero]
        rw [ih xs ys (by simpa using ha) (by simpa using hb)]
        ring

theorem sumSq_eq_range (a : List ℝ) :
    sumSq a = ∑ i ∈ Finset.range a.length, a.getD i 0 ^ 2 := by
  rw [← dotProduct_self_eq_sumSq, dotProduct_eq_range a a a.length rfl rfl]
  exact Finset.sum_congr rfl (fun i _ => by ring)

theorem list_cauchySchwarz (a b : List ℝ) (h : a.length = b.length) :
    dotProduct a b ≤ Real.sqrt (sumSq a) * Real.sqrt (sumSq b) := by
  have h1 := Real.sum_mul_le_sqrt_mul_sqrt (Finset.range a.length)
    (fun i => a.getD i 0) (fun i => b.getD i 0)
  rw [dotProduct_eq_range a b a.length rfl h.symm, sumSq_eq_range a, sumSq_eq_range b, ← h]
  exact h1

theorem dotProduct_neg_left (a b : List ℝ) :
    dotProduct (a.map (fun x => -x)) b = -dotProduct a b := by
  unfold dotProduct
  induction a generalizing b with
  | nil => simp
  | cons x xs ih =>
    cases b with
    | nil => simp
    | cons y ys =>
      simp only [List.map_cons, List.zipWith_cons_cons, List.sum_cons, ih ys]
      ring

theorem sumSq_neg (a : List ℝ) : sumSq (a.map (fun x => -x)) = sumSq a := by
  unfold sumSq
  induction a with
  | nil => simp
  | cons x xs ih =>
    simp only [List.map_cons, List.sum_cons, ih]
    ring

theorem abs_dotProduct_le (a b : List ℝ) (h : a.length = b.length) :
    |dotProduct a b| ≤ Real.sqrt (sumSq a) * Real.sqrt (sumSq b) := by
  rw [abs_le]
  constructor
  · have hneg := list_cauchySchwarz (a.map (fun x => -x)) b (by simpa using h)
    rw [dotProduct_neg_left, sumSq_neg] at hneg
    linarith
  · exact list_cauchySchwarz a b h

theorem cosineVal_bounds (a b : List ℝ) (h : a.length = b.length) :
    -1 ≤ cosineVal a b ∧ cosineVal a b ≤ 1 := by
  rw [cosineVal]
  split
  · norm_num
  · rename_i hz
    push_neg at hz
    obtain ⟨hza, hzb⟩ := hz
    have hpa : 0 < sumSq a := lt_of_le_of_ne (sumSq_nonneg a) (Ne.symm hza)
    have hpb : 0 < sumSq b := lt_of_le_of_ne (sumSq_nonneg b) (Ne.symm hzb)
    have hD : 0 < Real.sqrt (sumSq a) * Real.sqrt (sumSq b) :=
      mul_pos (Real.sqrt_pos.mpr hpa) (Real.sqrt_pos.mpr hpb)
    have habs := abs_dotProduct_le a b h
    rw [abs_le] at habs
    constructor
    · rw [le_div_iff₀ hD]
      linarith [habs.1]
    · rw [div_le_one hD]
      exact habs.2

theorem cosineVal_self (a : List ℝ) (hx : ∃ x ∈ a, x ≠ 0) : cosineVal a a = 1 := by
  obtain ⟨x, hmem, hne⟩ := hx
  have hpos : 0 < sumSq a := sumSq_pos_of_mem hmem hne
  rw [cosineVal, if_neg (by push_neg; exact ⟨ne_of_gt hpos, ne_of_gt hpos⟩)]
  rw [dotProduct_self_eq_sumSq, Real.mul_self_sqrt hpos.le]
  exact div_self (ne_of_gt hpos)

/-- C2: with the length guard passed, `cosineSimilarity` returns
`dot(a,b) / (sqrt(normA) * sqrt(normB))` when both accumulated norms are
non-zero and `0` when either is zero (over the reals, the accumulated norm
vanishes exactly when the vector is zero); every returned value lies in
`[-1, 1]`; and `cosineSimilarity a a = 1` for any vector with a non-zero
entry. -/
theorem cosineSimilarity_spec (a b : List ℝ) (h : a.length = b.length) :
    (sumSq a ≠ 0 → sumSq b ≠ 0 →
      cosineSimilarity a b
        = .ok (dotProduct a b / (Real.sqrt (sumSq a) * Real.sqrt (sumSq b))))
    ∧ (sumSq a = 0 ∨ sumSq b = 0 → cosineSimilarity a b = .ok 0)
    ∧ (∀ v : ℝ, cosineSimilarity a b = .ok v → -1 ≤ v ∧ v ≤ 1)
    ∧ ((∃ x ∈ a, x ≠ 0) → cosineSimilarity a a = .ok 1) := by
  have hgu : cosineSimilarity a b = .ok (cosineVal a b) := by
    rw [cosineSimilarity, if_neg (not_not_intro h)]
  refine ⟨?_, ?_, ?_, ?_⟩
  · intro hza hzb
    rw [hgu, cosineVal, if_neg (by push_neg; exact ⟨hza, hzb⟩)]
  · intro hz
    rw [hgu, cosineVal, if_pos hz]
  · intro v hv
    rw [hgu] at hv
    have hveq : v = cosineVal a b := (Except.ok.inj hv).symm
    rw [hveq]
    exact cosineVal_bounds a b h
  · intro hx
    rw [cosineSimilarity, if_neg (not_not_intro rfl), cosineVal_self a hx]

/-- Witness for C2: the one-dimensional unit vector has self-similarity 1. -/
theorem cosineSimilarity_spec_witness :
    cosineSimilarity [(1 : ℝ)] [(1 : ℝ)] = .ok 1 :=
  (cosineSimilarity_spec [(1 : ℝ)] [(1 : ℝ)] rfl).2.2.2
    ⟨1, List.mem_singleton_self 1, one_ne_zero⟩

/-! ## Theorems: search results (C1) and dimension mismatch (C7) -/

open Classical in
theorem collectResults_ok (q : List ℝ) (ms : ℝ) (cs : List SearchChunk)
    (hd : ∀ c ∈ cs, c.embedding.length = q.length) :
    collectResults q ms cs
      = .ok ((cs.filter (fun c => decide (ms ≤ cosineVal q c.embedding))).map
          (fun c => ⟨c, cosineVal q c.embedding⟩)) := by
  induction cs with
  | nil => rfl
  | cons c cs ih =>
    have hc : c.embedding.length = q.length := hd c (List.mem_cons_self c cs)
    have hrec := ih (fun d hdm => hd d (List.mem_cons_of_mem c hdm))
    rw [collectResults, cosineSimilarity, if_neg (not_not_intro hc.symm), hrec]
    by_cases hms : ms ≤ cosineVal q c.embedding
    · simp [List.filter_cons, hms]
    · simp [List.filter_cons, hms]

theorem collectResults_error (q : List ℝ) (ms : ℝ) (cs : List SearchChunk)
    (hbad : ∃ c ∈ cs, c.embedding.length ≠ q.length) :
    collectResults q ms cs = .error .dimensionMismatch := by
  induction cs with
  | nil => simp at hbad
  | cons c cs ih =>
    obtain ⟨d, hdm, hne⟩ := hbad
    by_cases hcl : q.length = c.embedding.length
    · rw [collectResults, cosineSimilarity, if_neg (not_not_intro hcl)]
      have hmem : d ∈ cs := by
        rcases List.mem_cons.mp hdm with rfl | hmem
        · exact absurd hcl.symm hne
        · exact hmem
      rw [ih ⟨d, hmem, hne⟩]
    · rw [collectResults, cosineSimilarity, if_pos hcl]

open Classical in
theorem search_ok (e : SearchEngine) (q : List ℝ) (k : ℕ) (ms : ℝ)
    (hl : e.isLoaded = true)
    (hd : ∀ c ∈ e.chunks, c.embedding.length = q.length) :
    e.search q k ms
      = .ok (((((e.chunks.filter (fun c => decide (ms ≤ cosineVal q c.embedding))).map
          (fun c => ⟨c, cosineVal q c.embedding⟩))).mergeSort
            (fun r s => decide (s.score ≤ r.score))).take k) := by
  rw [SearchEngine.search, if_neg (by simp [hl]), collectResults_ok q ms e.chunks hd]

open Classical in
/-- C1: on a loaded engine, for a query vector matching the corpus
dimension, `search` succeeds and returns a sequence in which every score is
at least `minScore`, scores are (weakly) descending, and whose length is at
most the minimum of `topK` and the number of stored chunks whose cosine
similarity to the query reaches `minScore`. -/
theorem search_topk_spec (e : SearchEngine) (q : List ℝ) (k : ℕ) (ms : ℝ)
    (hl : e.isLoaded = true)
    (hd : ∀ c ∈ e.chunks, c.embedding.length = q.length) :
    ∃ rs, e.search q k ms = .ok rs
      ∧ (∀ r ∈ rs, ms ≤ r.score)
      ∧ List.Pairwise (fun r s : SearchResult => s.score ≤ r.score) rs
      ∧ rs.length ≤ min k (qualifyingCount e q ms) := by
  classical
  refine ⟨_, search_ok e q k ms hl hd, ?_, ?_, ?_⟩
  · intro r hr
    have hr1 : r ∈ (((e.chunks.filter (fun c => decide (ms ≤ cosineVal q c.embedding))).map
        (fun c => ⟨c, cosineVal q c.embedding⟩)).mergeSort
          (fun r s => decide (s.score ≤ r.score))) := List.mem_of_mem_take hr
    rw [List.mem_mergeSort] at hr1
    obtain ⟨c, hcf, rfl⟩ := List.mem_map.mp hr1
    have := (List.mem_filter.mp hcf).2
    exact of_decide_eq_true this
  · have hsorted := @List.sorted_mergeSort SearchResult
      (fun r s : SearchResult => decide (s.score ≤ r.score))
      (fun a b c hab hbc => decide_eq_true
        (le_trans (of_decide_eq_true hbc) (of_decide_eq_true hab)))
      (fun a b => by
        rcases le_total b.score a.score with h | h
        · simp [decide_eq_true h]
        · simp [decide_eq_true h])
      ((e.chunks.filter (fun c => decide (ms ≤ cosineVal q c.embedding))).map
        (fun c => ⟨c, cosineVal q c.embedding⟩))
    have hTake := hsorted.sublist (List.take_sublist k _)
    exact hTake.imp (fun h => of_decide_eq_true h)
  · rw [List.length_take, List.length_mergeSort, List.length_map]
    exact min_le_min (le_refl k) (le_of_eq rfl)

/-- Witness for C1: a loaded single-chunk engine with a matching
one-dimensional query satisfies the full search contract. -/
theorem search_topk_spec_witness :
    ∃ rs, (SearchEngine.mk [⟨['i'], ['p'], ['h'], ['c'], [(1 : ℝ)]⟩] true).search
        [(1 : ℝ)] 1 (1 / 10) = .ok rs
      ∧ (∀ r ∈ rs, (1 : ℝ) / 10 ≤ r.score)
      ∧ List.Pairwise (fun r s : SearchResult => s.score ≤ r.score) rs
      ∧ rs.length ≤ min 1 (qualifyingCount
          (SearchEngine.mk [⟨['i'], ['p'], ['h'], ['c'], [(1 : ℝ)]⟩] true) [(1 : ℝ)] (1 / 10)) :=
  search_topk_spec (SearchEngine.mk [⟨['i'], ['p'], ['h'], ['c'], [(1 : ℝ)]⟩] true)
    [(1 : ℝ)] 1 (1 / 10) rfl
    (fun c hc => by rw [List.mem_singleton] at hc; subst hc; rfl)

/-- C7: on a loaded engine, a query vector whose length differs from some
stored embedding's length makes `search` fail with the dimension-mismatch
error; the engine state is a pure value, so it is unaffected, and the same
engine still answers a query of matching dimension successfully. -/
theorem search_dimension_mismatch_spec (e : SearchEngine) (q q2 : List ℝ) (k : ℕ) (ms : ℝ)
    (hl : e.isLoaded = true)
    (hbad : ∃ c ∈ e.chunks, c.embedding.length ≠ q.length)
    (hgood : ∀ c ∈ e.chunks, c.embedding.length = q2.length) :
    e.search q k ms = .error .dimensionMismatch
    ∧ ∃ rs, e.search q2 k ms = .ok rs := by
  constructor
  · rw [SearchEngine.search, if_neg (by simp [hl]), collectResults_error q ms e.chunks hbad]
  · exact ⟨_, search_ok e q2 k ms hl hgood⟩

/-- Witness for C7: a two-dimensional corpus rejects a one-dimensional
query with the dimension-mismatch error. -/
theorem search_dimension_mismatch_spec_witness :
    (SearchEngine.mk [⟨['i'], ['p'], ['h'], ['c'], [(1 : ℝ), 0]⟩] true).search
        [(1 : ℝ)] 10 (1 / 10) = .error .dimensionMismatch :=
  (search_dimension_mismatch_spec (SearchEngine.mk [⟨['i'], ['p'], ['h'], ['c'], [(1 : ℝ), 0]⟩] true)
    [(1 : ℝ)] [(1 : ℝ), 0] 10 (1 / 10) rfl
    ⟨⟨['i'], ['p'], ['h'], ['c'], [(1 : ℝ), 0]⟩, List.mem_singleton_self _, by simp⟩
    (fun c hc => by rw [List.mem_singleton] at hc; subst hc; rfl)).1

/-! ## Theorems: the chunk splitter (C4) -/

theorem stripWs_append (a b : Str) : stripWs (a ++ b) = stripWs a ++ stripWs b := by
  simp [stripWs]

theorem stripWs_dropWhile (s : Str) : stripWs (s.dropWhile isWs) = stripWs s := by
  induction s with
  | nil => rfl
  | cons c cs ih =>
    by_cases h : isWs c
    · rw [List.dropWhile_cons, if_pos h, ih]
      simp [stripWs, List.filter_cons, h]
    · rw [List.dropWhile_cons, if_neg h]

theorem stripWs_reverse (s : Str) : stripWs s.reverse = (stripWs s).reverse := by
  simp [stripWs]

theorem stripWs_trim (s : Str) : stripWs (trim s) = stripWs s := by
  rw [trim, stripWs_reverse, stripWs_dropWhile, stripWs_reverse, List.reverse_reverse,
    stripWs_dropWhile]

theorem stripWs_eq_nil_of_trim (s : Str) (h : (trim s).length = 0) : stripWs s = [] := by
  rw [← stripWs_trim, List.length_eq_zero.mp h]
  rfl

theorem splitPara_ne_nil (s : Str) : splitPara s ≠ [] := by
  induction s using splitPara.induct with
  | case1 => simp [splitPara]
  | case2 rest ih => simp [splitPara]
  | case3 c rest h heq ih => simp [splitPara.eq_3 c rest h, heq]
  | case4 c rest h p ps heq ih => simp [splitPara.eq_3 c rest h, heq]

theorem splitPara_flatten (s : Str) :
    stripWs (splitPara s).flatten = stripWs s := by
  induction s using splitPara.induct with
  | case1 => rfl
  | case2 rest ih =>
    show stripWs ([] :: splitPara rest).flatten = stripWs ('\n' :: '\n' :: rest)
    simp only [List.flatten_cons, List.nil_append]
    rw [ih]
    simp [stripWs, List.filter_cons, show isWs '\n' = true from rfl]
  | case3 c rest h heq ih => exact absurd heq (splitPara_ne_nil rest)
  | case4 c rest h p ps heq ih =>
    rw [splitPara.eq_3 c rest h, heq]
    have ih2 : stripWs (p ++ ps.flatten) = stripWs rest := by
      rw [heq] at ih
      simpa [List.flatten_cons] using ih
    show stripWs (c :: (p ++ ps.flatten)) = stripWs (c :: rest)
    simp only [stripWs, List.filter_cons] at ih2 ⊢
    rw [ih2]

theorem sentScan_flatten (acc s : Str) :
    (sentScan acc s).flatten = acc.reverse ++ s := by
  induction acc, s using sentScan.induct with
  | case1 acc hemp =>
    rw [sentScan, if_pos hemp]
    simp [List.isEmpty_iff.mp hemp]
  | case2 acc hemp =>
    rw [sentScan, if_neg hemp]
    simp
  | case3 acc c hp =>
    rw [sentScan, if_pos hp]
    simp
  | case4 acc c hp ih =>
    rw [sentScan, if_neg hp, ih]
    simp
  | case5 acc c d ds hp hw ih =>
    rw [sentScan, if_pos hp, if_pos hw]
    simp [ih]
  | case6 acc c d ds hp hw ih =>
    rw [sentScan, if_pos hp, if_neg hw, ih]
    simp
  | case7 acc c d ds hp ih =>
    rw [sentScan, if_neg hp, ih]
    simp

theorem stripWs_flatten_map_trim (ps : List Str) :
    stripWs (ps.map trim).flatten = stripWs ps.flatten := by
  induction ps with
  | nil => rfl
  | cons p ps ih => simp [List.flatten_cons, stripWs_append, stripWs_trim, ih]

theorem flatten_filter_length_pos (ps : List Str) :
    (ps.filter (fun p => p.length > 0)).flatten = ps.flatten := by
  induction ps with
  | nil => rfl
  | cons p ps ih =>
    rw [List.filter_cons]
    by_cases h : p.length > 0
    · simp [h, List.flatten_cons, ih]
    · have hnil : p = [] := by
        cases p with
        | nil => rfl
        | cons x xs => simp at h
      subst hnil
      simp [List.flatten_cons, ih]

theorem splitBySentences_stripWs (s : Str) :
    stripWs (splitBySentences s).flatten = stripWs s := by
  rw [splitBySentences, flatten_filter_length_pos, stripWs_flatten_map_trim, sentScan_flatten]
  simp

theorem chunksOfAux_flatten (k : ℕ) :
    ∀ (fuel : ℕ) (s : Str), s.length ≤ fuel → (chunksOfAux k fuel s).flatten = s := by
  intro fuel
  induction fuel with
  | zero =>
    intro s h
    cases s with
    | nil => rfl
    | cons c cs => simp at h
  | succ m ih =>
    intro s h
    cases s with
    | nil => rfl
    | cons c cs =>
      rw [chunksOfAux]
      simp only [List.flatten_cons]
      rw [ih _ (by simp only [List.length_drop, List.length_cons] at *; omega)]
      exact List.take_append_drop _ _

theorem hardSlice_flatten (s : Str) (m : ℕ) : (hardSlice s m).flatten = s :=
  chunksOfAux_flatten _ _ s (le_refl _)

theorem chunksOfAux_mem_length (k : ℕ) :
    ∀ (fuel : ℕ) (s p : Str), p ∈ chunksOfAux k fuel s → p.length ≤ max k 1 := by
  intro fuel
  induction fuel with
  | zero =>
    intro s p hp
    cases s with
    | nil => simp [chunksOfAux] at hp
    | cons c cs => simp [chunksOfAux] at hp
  | succ m ih =>
    intro s p hp
    cases s with
    | nil => simp [chunksOfAux] at hp
    | cons c cs =>
      rw [chunksOfAux] at hp
      rcases List.mem_cons.mp hp with rfl | hmem
      · exact List.length_take_le _ _
      · exact ih _ p hmem

theorem hardSlice_tokens_le (s : Str) (m : ℕ) (hm : 1 ≤ m) :
    ∀ p ∈ hardSlice s m, estimateTokens p ≤ m := by
  intro p hp
  have hlen : p.length ≤ max (charLimit m) 1 := chunksOfAux_mem_length _ _ s p hp
  rw [charLimit] at hlen
  rw [estimateTokens]
  omega

/-- All chunks in the list share the parent's page metadata and respect the
token budget. -/
def PartsOk (parent : Chunk) (m : ℕ) (cs : List Chunk) : Prop :=
  ∀ d ∈ cs, d.pageName = parent.pageName ∧ d.href = parent.href ∧
    estimateTokens d.fullContent ≤ m

/-- Concatenated content of a chunk list, in emission order. -/
def contentOf (cs : List Chunk) : Str := (cs.map Chunk.fullContent).flatten

theorem contentOf_append (a b : List Chunk) :
    contentOf (a ++ b) = contentOf a ++ contentOf b := by
  simp [contentOf]

theorem contentOf_concat (a : List Chunk) (d : Chunk) :
    contentOf (a ++ [d]) = contentOf a ++ d.fullContent := by
  simp [contentOf]

theorem PartsOk_append {parent m} {a b : List Chunk}
    (ha : PartsOk parent m a) (hb : PartsOk parent m b) : PartsOk parent m (a ++ b) := by
  intro d hd
  rcases List.mem_append.mp hd with h | h
  · exact ha d h
  · exact hb d h

theorem PartsOk_mkPart {parent : Chunk} {m n : ℕ} {content : Str}
    (h : estimateTokens content ≤ m) : PartsOk parent m [mkPart parent n content] := by
  intro d hd
  rw [List.mem_singleton] at hd
  subst hd
  exact ⟨rfl, rfl, h⟩

theorem emitSlices_mem (parent : Chunk) :
    ∀ (slices : List Str) (n : ℕ) (d : Chunk), d ∈ emitSlices parent n slices →
      d.pageName = parent.pageName ∧ d.href = parent.href ∧ d.fullContent ∈ slices := by
  intro slices
  induction slices with
  | nil => intro n d hd; simp [emitSlices] at hd
  | cons s rest ih =>
    intro n d hd
    rw [emitSlices] at hd
    rcases List.mem_cons.mp hd with rfl | hmem
    · exact ⟨rfl, rfl, List.mem_cons_self _ _⟩
    · obtain ⟨h1, h2, h3⟩ := ih (n + 1) d hmem
      exact ⟨h1, h2, List.mem_cons_of_mem _ h3⟩

theorem emitSlices_content (parent : Chunk) :
    ∀ (slices : List Str) (n : ℕ),
      contentOf (emitSlices parent n slices) = slices.flatten := by
  intro slices
  induction slices with
  | nil => intro n; rfl
  | cons s rest ih =>
    intro n
    rw [emitSlices]
    show contentOf ([mkPart parent n s] ++ emitSlices parent (n + 1) rest) = _
    rw [contentOf_append, ih (n + 1)]
    simp [contentOf, mkPart, List.flatten_cons]

theorem estimateTokens_nil_le (m : ℕ) : estimateTokens [] ≤ m := by
  rw [estimateTokens]
  simp

theorem sentStep_inv (parent : Chunk) (m : ℕ) (hm : 1 ≤ m) (st : SplitState) (sentence : Str)
    (hok : PartsOk parent m st.subChunks) (hbuf : estimateTokens st.buffer ≤ m) :
    PartsOk parent m (sentStep parent m st sentence).subChunks ∧
    estimateTokens (sentStep parent m st sentence).buffer ≤ m ∧
    stripWs (contentOf (sentStep parent m st sentence).subChunks
        ++ (sentStep parent m st sentence).buffer)
      = stripWs (contentOf st.subChunks ++ st.buffer ++ sentence) := by
  by_cases hemp : st.buffer.isEmpty
  · have hbnil : st.buffer = [] := List.isEmpty_iff.mp hemp
    by_cases hsbig : estimateTokens sentence > m
    · have hstep : sentStep parent m st sentence
          = ⟨st.subChunks ++ emitSlices parent st.partIndex (hardSlice sentence m), [],
             st.partIndex + (hardSlice sentence m).length⟩ := by
        simp [sentStep, hbnil, hsbig]
      rw [hstep]
      refine ⟨?_, estimateTokens_nil_le m, ?_⟩
      · refine PartsOk_append hok ?_
        intro d hd
        obtain ⟨h1, h2, h3⟩ := emitSlices_mem parent (hardSlice sentence m) st.partIndex d hd
        exact ⟨h1, h2, hardSlice_tokens_le sentence m hm _ h3⟩
      · rw [List.append_nil, contentOf_append, emitSlices_content, hardSlice_flatten, hbnil,
          List.append_nil]
    · have hstep : sentStep parent m st sentence = { st with buffer := sentence } := by
        simp [sentStep, hbnil, hsbig]
      rw [hstep]
      refine ⟨hok, by simpa using hsbig, ?_⟩
      rw [hbnil, List.append_nil]
  · have hef : st.buffer.isEmpty = false := Bool.not_eq_true _ ▸ Bool.of_not_eq_true hemp
    by_cases hbig : estimateTokens (st.buffer ++ ' ' :: sentence) > m
    · by_cases hsbig : estimateTokens sentence > m
      · have hstep : sentStep parent m st sentence
            = ⟨st.subChunks ++ mkPart parent st.partIndex st.buffer
                  :: emitSlices parent (st.partIndex + 1) (hardSlice sentence m), [],
               st.partIndex + 1 + (hardSlice sentence m).length⟩ := by
          simp [sentStep, hef, hbig, hsbig]
        rw [hstep]
        refine ⟨?_, estimateTokens_nil_le m, ?_⟩
        · refine PartsOk_append hok ?_
          intro d hd
          rcases List.mem_cons.mp hd with rfl | hmem
          · exact ⟨rfl, rfl, hbuf⟩
          · obtain ⟨h1, h2, h3⟩ := emitSlices_mem parent (hardSlice sentence m)
              (st.partIndex + 1) d hmem
            exact ⟨h1, h2, hardSlice_tokens_le sentence m hm _ h3⟩
        · rw [List.append_nil]
          have hc : contentOf (st.subChunks ++ mkPart parent st.partIndex st.buffer
                :: emitSlices parent (st.partIndex + 1) (hardSlice sentence m))
              = contentOf st.subChunks ++ st.buffer
                  ++ ((emitSlices parent (st.partIndex + 1) (hardSlice sentence m)).map
                    Chunk.fullContent).flatten := by
            simp [contentOf, mkPart]
          rw [hc]
          have hco : ((emitSlices parent (st.partIndex + 1) (hardSlice sentence m)).map
              Chunk.fullContent).flatten = sentence := by
            have := emitSlices_content parent (hardSlice sentence m) (st.partIndex + 1)
            rw [contentOf] at this
            rw [this, hardSlice_flatten]
          rw [hco]
      · have hstep : sentStep parent m st sentence
            = ⟨st.subChunks ++ [mkPart parent st.partIndex st.buffer], sentence,
               st.partIndex + 1⟩ := by
          simp [sentStep, hef, hbig, hsbig]
        rw [hstep]
        refine ⟨PartsOk_append hok (PartsOk_mkPart hbuf), by simpa using hsbig, ?_⟩
        rw [contentOf_concat]
        simp [mkPart, List.append_assoc]
    · have hstep : sentStep parent m st sentence
          = { st with buffer := st.buffer ++ ' ' :: sentence } := by
        simp [sentStep, hef, hbig]
      rw [hstep]
      refine ⟨hok, by simpa using hbig, ?_⟩
      show stripWs (contentOf st.subChunks ++ (st.buffer ++ ' ' :: sentence)) = _
      simp only [stripWs_append]
      have : stripWs (' ' :: sentence) = stripWs sentence := by
        simp [stripWs, List.filter_cons, show isWs ' ' = true from rfl]
      rw [this, List.append_assoc]

theorem sentFold_inv (parent : Chunk) (m : ℕ) (hm : 1 ≤ m) (ss : List Str) :
    ∀ st : SplitState, PartsOk parent m st.subChunks → estimateTokens st.buffer ≤ m →
      PartsOk parent m (ss.foldl (sentStep parent m) st).subChunks ∧
      estimateTokens (ss.foldl (sentStep parent m) st).buffer ≤ m ∧
      stripWs (contentOf (ss.foldl (sentStep parent m) st).subChunks
          ++ (ss.foldl (sentStep parent m) st).buffer)
        = stripWs (contentOf st.subChunks ++ st.buffer ++ ss.flatten) := by
  induction ss with
  | nil =>
    intro st hok hbuf
    refine ⟨hok, hbuf, by simp⟩
  | cons s ss ih =>
    intro st hok hbuf
    obtain ⟨h1, h2, h3⟩ := sentStep_inv parent m hm st s hok hbuf
    obtain ⟨g1, g2, g3⟩ := ih (sentStep parent m st s) h1 h2
    rw [List.foldl_cons]
    refine ⟨g1, g2, ?_⟩
    rw [g3]
    simp only [stripWs_append, List.flatten_cons, ← List.append_assoc] at h3 ⊢
    rw [h3]

theorem sentFlush_inv (parent : Chunk) (m : ℕ) (st : SplitState)
    (hok : PartsOk parent m st.subChunks) (hbuf : estimateTokens st.buffer ≤ m) :
    PartsOk parent m (sentFlush parent st).subChunks ∧
    stripWs (contentOf (sentFlush parent st).subChunks)
      = stripWs (contentOf st.subChunks ++ st.buffer) := by
  rw [sentFlush]
  split
  · rename_i hemp
    refine ⟨hok, ?_⟩
    rw [List.isEmpty_iff.mp hemp, List.append_nil]
  · refine ⟨PartsOk_append hok (PartsOk_mkPart hbuf), ?_⟩
    show stripWs (contentOf (st.subChunks ++ [mkPart parent st.partIndex st.buffer])) = _
    rw [contentOf_concat]
    rfl

theorem pushBufferIfAny_inv (parent : Chunk) (m : ℕ) (st : SplitState)
    (hok : PartsOk parent m st.subChunks) (hbuf : estimateTokens st.buffer ≤ m) :
    PartsOk parent m (pushBufferIfAny parent st).subChunks ∧
    estimateTokens (pushBufferIfAny parent st).buffer ≤ m ∧
    stripWs (pushBufferIfAny parent st).buffer = [] ∧
    stripWs (contentOf (pushBufferIfAny parent st).subChunks)
      = stripWs (contentOf st.subChunks ++ st.buffer) := by
  rw [pushBufferIfAny]
  split
  · rename_i htr
    refine ⟨hok, hbuf, stripWs_eq_nil_of_trim _ htr, ?_⟩
    rw [stripWs_append, stripWs_eq_nil_of_trim _ htr, List.append_nil]
  · refine ⟨PartsOk_append hok (PartsOk_mkPart hbuf), estimateTokens_nil_le m, rfl, ?_⟩
    show stripWs (contentOf (st.subChunks ++ [mkPart parent st.partIndex st.buffer])) = _
    rw [contentOf_concat]
    rfl

theorem paraStep_inv (parent : Chunk) (m : ℕ) (hm : 1 ≤ m) (st : SplitState) (p : Str)
    (hok : PartsOk parent m st.subChunks) (hbuf : estimateTokens st.buffer ≤ m) :
    PartsOk parent m (paraStep parent m st p).subChunks ∧
    estimateTokens (paraStep parent m st p).buffer ≤ m ∧
    stripWs (contentOf (paraStep parent m st p).subChunks ++ (paraStep parent m st p).buffer)
      = stripWs (contentOf st.subChunks ++ st.buffer ++ p) := by
  obtain ⟨q1, q2, q3, q4⟩ := pushBufferIfAny_inv parent m st hok hbuf
  by_cases hpbig : estimateTokens (trim p) > m
  · have hstep : paraStep parent m st p
        = ⟨(sentFlush parent ((splitBySentences (trim p)).foldl (sentStep parent m)
              ⟨(pushBufferIfAny parent st).subChunks, [],
                (pushBufferIfAny parent st).partIndex⟩)).subChunks,
           (pushBufferIfAny parent st).buffer,
           (sentFlush parent ((splitBySentences (trim p)).foldl (sentStep parent m)
              ⟨(pushBufferIfAny parent st).subChunks, [],
                (pushBufferIfAny parent st).partIndex⟩)).partIndex⟩ := by
      simp only [paraStep]
      rw [if_pos hpbig]
    rw [hstep]
    obtain ⟨f1, f2, f3⟩ := sentFold_inv parent m hm (splitBySentences (trim p))
      ⟨(pushBufferIfAny parent st).subChunks, [], (pushBufferIfAny parent st).partIndex⟩
      q1 (estimateTokens_nil_le m)
    obtain ⟨g1, g2⟩ := sentFlush_inv parent m _ f1 f2
    have f3x : stripWs (contentOf ((splitBySentences (trim p)).foldl (sentStep parent m)
          ⟨(pushBufferIfAny parent st).subChunks, [],
            (pushBufferIfAny parent st).partIndex⟩).subChunks
        ++ ((splitBySentences (trim p)).foldl (sentStep parent m)
          ⟨(pushBufferIfAny parent st).subChunks, [],
            (pushBufferIfAny parent st).partIndex⟩).buffer)
        = stripWs (contentOf (pushBufferIfAny parent st).subChunks
            ++ (splitBySentences (trim p)).flatten) := by
      simpa using f3
    refine ⟨g1, q2, ?_⟩
    show stripWs (contentOf (sentFlush parent ((splitBySentences (trim p)).foldl
          (sentStep parent m) ⟨(pushBufferIfAny parent st).subChunks, [],
            (pushBufferIfAny parent st).partIndex⟩)).subChunks
        ++ (pushBufferIfAny parent st).buffer)
      = stripWs (contentOf st.subChunks ++ st.buffer ++ p)
    rw [stripWs_append, g2, f3x, stripWs_append, q4, q3, List.append_nil,
      splitBySentences_stripWs, stripWs_trim]
    simp [stripWs_append, List.append_assoc]
  · by_cases htbig : estimateTokens (st.buffer
        ++ (if st.buffer.isEmpty then [] else ['\n', '\n']) ++ trim p) > m
    · have hstep : paraStep parent m st p
          = { pushBufferIfAny parent st with buffer := trim p } := by
        simp only [paraStep]
        rw [if_neg hpbig, if_pos htbig]
      rw [hstep]
      push_neg at hpbig
      refine ⟨q1, hpbig, ?_⟩
      show stripWs (contentOf (pushBufferIfAny parent st).subChunks ++ trim p) = _
      rw [stripWs_append, q4, stripWs_trim, ← stripWs_append, List.append_assoc]
    · have hstep : paraStep parent m st p
          = { st with buffer := st.buffer
                ++ (if st.buffer.isEmpty then [] else ['\n', '\n']) ++ trim p } := by
        simp only [paraStep]
        rw [if_neg hpbig, if_neg htbig]
      rw [hstep]
      push_neg at htbig
      refine ⟨hok, htbig, ?_⟩
      show stripWs (contentOf st.subChunks ++ (st.buffer
          ++ (if st.buffer.isEmpty then [] else ['\n', '\n']) ++ trim p)) = _
      have hsep : stripWs (if st.buffer.isEmpty then ([] : Str) else ['\n', '\n']) = [] := by
        split <;> rfl
      simp only [stripWs_append, hsep, List.nil_append, stripWs_trim, List.append_assoc]

theorem paraFold_inv (parent : Chunk) (m : ℕ) (hm : 1 ≤ m) (ps : List Str) :
    ∀ st : SplitState, PartsOk parent m st.subChunks → estimateTokens st.buffer ≤ m →
      PartsOk parent m (ps.foldl (paraStep parent m) st).subChunks ∧
      estimateTokens (ps.foldl (paraStep parent m) st).buffer ≤ m ∧
      stripWs (contentOf (ps.foldl (paraStep parent m) st).subChunks
          ++ (ps.foldl (paraStep parent m) st).buffer)
        = stripWs (contentOf st.subChunks ++ st.buffer ++ ps.flatten) := by
  induction ps with
  | nil =>
    intro st hok hbuf
    refine ⟨hok, hbuf, by simp⟩
  | cons p ps ih =>
    intro st hok hbuf
    obtain ⟨h1, h2, h3⟩ := paraStep_inv parent m hm st p hok hbuf
    obtain ⟨g1, g2, g3⟩ := ih (paraStep parent m st p) h1 h2
    rw [List.foldl_cons]
    refine ⟨g1, g2, ?_⟩
    rw [g3]
    simp only [stripWs_append, List.flatten_cons, ← List.append_assoc] at h3 ⊢
    rw [h3]

theorem stripWs_flatten_filter_trim (ps : List Str) :
    stripWs ((ps.filter (fun p => (trim p).length > 0)).flatten) = stripWs ps.flatten := by
  induction ps with
  | nil => rfl
  | cons p ps ih =>
    rw [List.filter_cons]
    by_cases h : (trim p).length > 0
    · simp [List.flatten_cons, stripWs_append, ih, h]
    · have hz : stripWs p = [] := stripWs_eq_nil_of_trim p (by omega)
      simp [List.flatten_cons, stripWs_append, ih, h, hz]

/-- C4 counterexample: the claim as stated fails.  An oversized chunk
of eight spaces split with budget 1 is returned unchanged (it yields no
non-whitespace paragraph), so a child's estimated token count (2) exceeds
the budget even though the chunk is not a single character. -/
theorem splitLargeChunk_budget_counterexample :
    splitLargeChunk ⟨['i'], ['p'], ['h'], List.replicate 8 ' '⟩ 1
        = [⟨['i'], ['p'], ['h'], List.replicate 8 ' '⟩]
    ∧ ∃ d ∈ splitLargeChunk ⟨['i'], ['p'], ['h'], List.replicate 8 ' '⟩ 1,
        1 < estimateTokens d.fullContent :=
  ⟨by decide, by decide⟩

/-- C4 amended: for every chunk and positive token budget, `splitLargeChunk`
returns children sharing the parent's `pageName` and `href`; the
concatenated child contents reproduce the parent's content up to whitespace
normalisation; when the parent's estimate is within the budget the result
is the unchanged singleton; and — provided the content has at least one
non-whitespace character — every child's estimated token count is at most
the budget.  (The whitespace-only oversized case returns the unchanged
oversized singleton, which is what the unrestricted claim misses.) -/
theorem splitLargeChunk_spec (c : Chunk) (m : ℕ) (hm : 1 ≤ m) :
    (∀ d ∈ splitLargeChunk c m, d.pageName = c.pageName ∧ d.href = c.href)
    ∧ stripWs (contentOf (splitLargeChunk c m)) = stripWs c.fullContent
    ∧ (estimateTokens c.fullContent ≤ m → splitLargeChunk c m = [c])
    ∧ ((∃ ch ∈ c.fullContent, isWs ch = false) →
        ∀ d ∈ splitLargeChunk c m, estimateTokens d.fullContent ≤ m) := by
  by_cases hle : estimateTokens c.fullContent ≤ m
  · have heq : splitLargeChunk c m = [c] := by
      rw [splitLargeChunk, if_pos hle]
    rw [heq]
    refine ⟨?_, by simp [contentOf], fun _ => rfl, ?_⟩
    · intro d hd
      rw [List.mem_singleton] at hd
      subst hd
      exact ⟨rfl, rfl⟩
    · intro _ d hd
      rw [List.mem_singleton] at hd
      subst hd
      exact hle
  · have h0 : splitLargeChunk c m
        = if (pushBufferIfAny c (((splitPara c.fullContent).filter
              (fun p => (trim p).length > 0)).foldl (paraStep c m)
              ⟨[], [], 0⟩)).subChunks.length > 0
          then (pushBufferIfAny c (((splitPara c.fullContent).filter
              (fun p => (trim p).length > 0)).foldl (paraStep c m) ⟨[], [], 0⟩)).subChunks
          else [c] := by
      rw [splitLargeChunk, if_neg hle]
    obtain ⟨a1, a2, a3⟩ := paraFold_inv c m hm ((splitPara c.fullContent).filter
        (fun p => (trim p).length > 0)) ⟨[], [], 0⟩
        (fun d hd => absurd hd (List.not_mem_nil d)) (estimateTokens_nil_le m)
    obtain ⟨b1, b2, b3, b4⟩ := pushBufferIfAny_inv c m _ a1 a2
    have a3x : stripWs (contentOf (((splitPara c.fullContent).filter
          (fun p => (trim p).length > 0)).foldl (paraStep c m) ⟨[], [], 0⟩).subChunks
        ++ (((splitPara c.fullContent).filter
          (fun p => (trim p).length > 0)).foldl (paraStep c m) ⟨[], [], 0⟩).buffer)
        = stripWs (((splitPara c.fullContent).filter
            (fun p => (trim p).length > 0)).flatten) := by
      simpa [contentOf] using a3
    have hcons : stripWs (contentOf (pushBufferIfAny c (((splitPara c.fullContent).filter
          (fun p => (trim p).length > 0)).foldl (paraStep c m) ⟨[], [], 0⟩)).subChunks)
        = stripWs c.fullContent := by
      rw [b4, a3x, stripWs_flatten_filter_trim, splitPara_flatten]
    rw [h0]
    split
    · refine ⟨?_, hcons, fun hcon => absurd hcon hle, ?_⟩
      · intro d hd
        obtain ⟨x1, x2, _⟩ := b1 d hd
        exact ⟨x1, x2⟩
      · intro _ d hd
        exact (b1 d hd).2.2
    · rename_i hlen
      push_neg at hlen
      have hnil : (pushBufferIfAny c (((splitPara c.fullContent).filter
            (fun p => (trim p).length > 0)).foldl (paraStep c m) ⟨[], [], 0⟩)).subChunks
          = [] := List.eq_nil_of_length_eq_zero (Nat.le_zero.mp hlen)
      refine ⟨?_, by simp [contentOf], fun hcon => absurd hcon hle, ?_⟩
      · intro d hd
        rw [List.mem_singleton] at hd
        subst hd
        exact ⟨rfl, rfl⟩
      · intro hws d hd
        exfalso
        rw [hnil] at hcons
        have hnilc : stripWs c.fullContent = [] := by
          rw [← hcons]
          rfl
        obtain ⟨ch, hch, hchw⟩ := hws
        have hmem : ch ∈ stripWs c.fullContent := by
          rw [stripWs, List.mem_filter]
          exact ⟨hch, by simp [hchw]⟩
        rw [hnilc] at hmem
        exact absurd hmem (List.not_mem_nil ch)

/-- Witness for C4 (amended): a ten-character all-letter chunk split with
budget 1 satisfies every conjunct of the amended claim. -/
theorem splitLargeChunk_spec_witness :
    (∀ d ∈ splitLargeChunk ⟨['i'], ['p'], ['h'], List.replicate 10 'a'⟩ 1,
        d.pageName = (⟨['i'], ['p'], ['h'], List.replicate 10 'a'⟩ : Chunk).pageName
          ∧ d.href = (⟨['i'], ['p'], ['h'], List.replicate 10 'a'⟩ : Chunk).href)
    ∧ stripWs (contentOf (splitLargeChunk ⟨['i'], ['p'], ['h'], List.replicate 10 'a'⟩ 1))
        = stripWs (⟨['i'], ['p'], ['h'], List.replicate 10 'a'⟩ : Chunk).fullContent
    ∧ (estimateTokens (⟨['i'], ['p'], ['h'], List.replicate 10 'a'⟩ : Chunk).fullContent ≤ 1 →
        splitLargeChunk ⟨['i'], ['p'], ['h'], List.replicate 10 'a'⟩ 1
          = [⟨['i'], ['p'], ['h'], List.replicate 10 'a'⟩])
    ∧ ((∃ ch ∈ (⟨['i'], ['p'], ['h'], List.replicate 10 'a'⟩ : Chunk).fullContent,
          isWs ch = false) →
        ∀ d ∈ splitLargeChunk ⟨['i'], ['p'], ['h'], List.replicate 10 'a'⟩ 1,
          estimateTokens d.fullContent ≤ 1) :=
  splitLargeChunk_spec ⟨['i'], ['p'], ['h'], List.replicate 10 'a'⟩ 1 (by decide)

end GmatDocs
